import Mathlib

/-!
# Verification of the LIMG codec (`src/image.py`)

Shallow embedding of the pixel-grid container codec in `src/image.py`:
the `Image` class (validating constructor, `from_file` decoder,
`write_to_file` encoder) together with its helper routines
(`validate_array`, `binary_to_data`, `data_to_binary`).

Modelling conventions:
* A Python byte string is a `List Nat` (each element the byte value).
* Pixel values are `Nat` (the source compares `int(pixel)` against `0`/`1`).
* Python exceptions become an explicit error type `PyErr`; each deliberate
  `raise ValueError(...)` site of the source gets its own constructor, and
  untyped out-of-range indexing (Python `IndexError`) gets `indexError`.
* Filesystem concerns (`os.path.isfile`, `os.makedirs`, appending the
  `.limg` suffix, opening/closing the handle) are outside the codec per the
  spec's external-interface contract; `from_file` consumes the byte
  sequence that the file would contain and `write_to_file` returns the byte
  sequence that would be written.
* Python's textual bit strings (`"{0:016b}".format`, `"{0:08b}".format`,
  `str(pixel)`, `int(s, 2)`, string indexing) are lists of digit values.
-/

namespace Limg

/-- The four signature bytes `b'LIMG'` (`Image._FILE_SIGNATURE`). -/
def limgSignature : List Nat := [76, 73, 77, 71]

/-- The errors the source can raise on the codec paths.

* `badSignature`: `raise ValueError(filepath + " doesn't seem to point to a limg file.")`
  in `Image.from_file`.
* `raggedRows`: `raise ValueError("Every line in the array must have the same length.")`
  in `Image.__init__`.
* `invalidContent`: the `ValueError("Format_BW pixels should have a value of 0 or 1.")`
  raised by `validate_array`, caught and re-raised by `Image.__init__` as
  `ValueError("Invalid image file, check logs for details.")`.
* `indexError`: Python `IndexError` from out-of-range indexing
  (`array[0]` on an empty list, `binary_str[i]` past the end).
* `intParse`: the `ValueError` `int(s, 2)` would raise on a non-binary digit. -/
inductive PyErr where
  | badSignature
  | raggedRows
  | invalidContent
  | indexError
  | intParse
  deriving DecidableEq, Repr

/-- The `Image` object: the stored array and format tag
(`self._data`, `self._image_format`). -/
structure Image where
  _data : List (List Nat)
  _image_format : Nat
  deriving DecidableEq, Repr

/-- `self._width = len(array[0])` (on the empty array Python raises; `width`
is only meaningful for images that passed construction). -/
def Image.width (img : Image) : Nat := img._data.headI.length

/-- `self._height = len(array)`. -/
def Image.height (img : Image) : Nat := img._data.length

/-- `validate_array` from `Image.__init__`: in `Format_BW` mode every pixel
must be `0` or `1`; for any other format the function checks nothing.
`true` means the array passes (no exception raised). -/
def validate_array (array : List (List Nat)) (image_format : Nat) : Bool :=
  if image_format = 0 then
    array.all (fun row => row.all (fun pixel => pixel == 0 || pixel == 1))
  else true

/-- `Image.__init__(array, image_format)`:
computes `self._width = len(array[0])` (IndexError on an empty array),
checks every row's length against `_width`
(raising on the first mismatch), then runs `validate_array`
(whose `ValueError` is re-raised as the generic invalid-image error). -/
def Image.mk' (array : List (List Nat)) (image_format : Nat) :
    Except PyErr Image :=
  match array with
  | [] => .error .indexError
  | r0 :: _ =>
    if array.all (fun row => row.length == r0.length) then
      if validate_array array image_format then
        .ok ⟨array, image_format⟩
      else .error .invalidContent
    else .error .raggedRows

/-! ### Bit strings

`"{0:b}".format(n)` is the binary representation of `n`, most significant
bit first, with no leading zeros (and `"0"` for `n = 0`); the field width in
`"{0:016b}"` / `"{0:08b}"` only left-pads with zeros up to that minimum
width — a larger number produces a longer string, it is not truncated. -/

/-- Binary digits of `n`, least significant first, fuel-driven
(`[]` for `n = 0`). -/
def bitsLEAux : Nat → Nat → List Nat
  | 0, _ => []
  | f + 1, n => if n = 0 then [] else n % 2 :: bitsLEAux f (n / 2)

/-- Binary digits of `n`, least significant first (`[]` for `n = 0`). -/
def bitsLE (n : Nat) : List Nat := bitsLEAux n n

/-- `"{0:b}".format(n)` as a digit list (most significant first). -/
def pyBin (n : Nat) : List Nat :=
  if n = 0 then [0] else (bitsLE n).reverse

/-- `"{0:0wb}".format(n)`: `pyBin n` left-padded with zeros to a minimum
width of `w`. -/
def toBinPad (n w : Nat) : List Nat :=
  List.replicate (w - (pyBin n).length) 0 ++ pyBin n

/-- Decimal digits of `n`, least significant first, fuel-driven. -/
def digLEAux : Nat → Nat → List Nat
  | 0, _ => []
  | f + 1, n => if n = 0 then [] else n % 10 :: digLEAux f (n / 10)

/-- `str(n)` for a natural number, as a digit list (most significant
first); this is what `result += str(pixel)` appends in `data_to_binary`. -/
def decDigits (n : Nat) : List Nat :=
  if n = 0 then [0] else (digLEAux n n).reverse

/-- `int(s, 2)` on a string of binary digits (assuming they are valid):
most-significant-first accumulation. -/
def byteVal (ds : List Nat) : Nat := ds.foldl (fun a d => 2 * a + d) 0

/-- `int.from_bytes(bs, "big")`; note `int.from_bytes(b"", "big") = 0`,
which is what a short `file.read` produces at end of file. -/
def fromBytesBE (bs : List Nat) : Nat := bs.foldl (fun a b => 256 * a + b) 0

/-- `[int(binary_data[i:i+8], 2) for i in range(0, len(binary_data), 8)]`:
split the digit string into chunks of (at most) 8 and convert each,
fuel-driven. -/
def packBitsAux : Nat → List Nat → List Nat
  | 0, _ => []
  | _, [] => []
  | f + 1, d :: ds => byteVal ((d :: ds).take 8) :: packBitsAux f ((d :: ds).drop 8)

/-- The byte list obtained from a digit string, 8 digits per byte. -/
def packBits (ds : List Nat) : List Nat := packBitsAux ds.length ds

/-- The `binary_str` built in `binary_to_data`: each payload byte rendered
with `"{0:08b}".format(byte)` and concatenated. -/
def unpackBytes (bytes : List Nat) : List Nat :=
  (bytes.map (fun b => toBinPad b 8)).flatten

/-! ### Decoding (`Image.from_file` and its helper `binary_to_data`) -/

/-- One row of the fill loop in `binary_to_data`: read `w` consecutive
characters of `binary_str` starting at index `i`
(`result[row][col] = int(binary_str[i]); i += 1`); indexing past the end
of the string raises `IndexError`. -/
def fillRow (bs : List Nat) : Nat → Nat → Except PyErr (List Nat)
  | 0, _ => .ok []
  | w + 1, i =>
    match bs[i]? with
    | none => .error .indexError
    | some b =>
      match fillRow bs w (i + 1) with
      | .error e => .error e
      | .ok rest => .ok (b :: rest)

/-- The nested fill loop of `binary_to_data` in `Format_BW` mode: `h` rows
of `w` pixels each, consuming `binary_str` sequentially from index `i`. -/
def fillBW (bs : List Nat) (w : Nat) : Nat → Nat → Except PyErr (List (List Nat))
  | 0, _ => .ok []
  | h + 1, i =>
    match fillRow bs w i with
    | .error e => .error e
    | .ok row =>
      match fillBW bs w h (i + w) with
      | .error e => .error e
      | .ok rest => .ok (row :: rest)

/-- `binary_to_data(binary, image_format, width, height)`: builds
`binary_str`, creates a `height × width` array of zeros, and in
`Format_BW` mode overwrites every cell with successive characters of
`binary_str`; for any other format the zero array is returned unchanged. -/
def binary_to_data (binary : List Nat) (image_format width height : Nat) :
    Except PyErr (List (List Nat)) :=
  let binary_str := unpackBytes binary
  if image_format = 0 then
    fillBW binary_str width height 0
  else
    .ok (List.replicate height (List.replicate width 0))

/-- `Image.from_file` on the byte contents of the file: check the 4-byte
signature, read `width` and `height` (2 big-endian bytes each, in that
order), the 1-byte format, pass the remaining bytes to `binary_to_data`,
and run the validating constructor on the result. A short read simply
yields fewer bytes (and `int.from_bytes` of the empty string is `0`);
there is no truncation check. -/
def from_file (bs : List Nat) : Except PyErr Image :=
  if bs.take 4 = limgSignature then
    let width := fromBytesBE ((bs.drop 4).take 2)
    let height := fromBytesBE ((bs.drop 6).take 2)
    let image_format := fromBytesBE ((bs.drop 8).take 1)
    match binary_to_data (bs.drop 9) image_format width height with
    | .error e => .error e
    | .ok arr => Image.mk' arr image_format
  else .error .badSignature

/-! ### Encoding (`Image.write_to_file` and its helper `data_to_binary`) -/

/-- `data_to_binary`: in `Format_BW` mode append `str(pixel)` for every
pixel in row-major order; any other format contributes nothing. -/
def data_to_binary (img : Image) : List Nat :=
  if img._image_format = 0 then
    (img._data.flatten.map decDigits).flatten
  else []

/-- The `binary_data` digit string of `write_to_file` before padding:
`"{0:016b}{1:016b}".format(self._width, self._height)`, then
`"{0:08b}".format(self._image_format)`, then `data_to_binary()`. -/
def binaryData (img : Image) : List Nat :=
  toBinPad img.width 16 ++ toBinPad img.height 16 ++
    toBinPad img._image_format 8 ++ data_to_binary img

/-- `missing = 8 - len(binary_data) % 8; missing = 0 if missing == 8 else missing`. -/
def missingBits (len : Nat) : Nat :=
  if 8 - len % 8 = 8 then 0 else 8 - len % 8

/-- `binary_data` after right-padding with `"0" * missing`. -/
def paddedBits (img : Image) : List Nat :=
  binaryData img ++ List.replicate (missingBits (binaryData img).length) 0

/-- The full byte stream `write_to_file` writes: the signature followed by
the packed digit string. -/
def writeBytes (img : Image) : List Nat :=
  limgSignature ++ packBits (paddedBits img)

/-- `Image.write_to_file`, as the byte sequence written to the sink.
`int(s, 2)` raises if some character of `binary_data` is not a binary
digit; otherwise the signature and the packed bytes are written.
There is no check of any kind on `self._width`/`self._height`. -/
def write_to_file (img : Image) : Except PyErr (List Nat) :=
  if (paddedBits img).all (fun d => d < 2) then
    .ok (writeBytes img)
  else .error .intParse

/-! ### Properties of the bit strings -/

theorem bitsLEAux_congr : ∀ f g n, n ≤ f → n ≤ g → bitsLEAux f n = bitsLEAux g n := by
  intro f
  induction f with
  | zero =>
    intro g n hf _
    interval_cases n
    cases g <;> simp [bitsLEAux]
  | succ f ih =>
    intro g n hf hg
    by_cases hn : n = 0
    · subst hn; cases g <;> simp [bitsLEAux]
    · obtain ⟨g', rfl⟩ : ∃ g', g = g' + 1 := ⟨g - 1, by omega⟩
      simp only [bitsLEAux, if_neg hn]
      have h2 : n / 2 ≤ f := by omega
      have h2' : n / 2 ≤ g' := by omega
      rw [ih g' (n / 2) h2 h2']

theorem bitsLE_eq (n : Nat) :
    bitsLE n = if n = 0 then [] else n % 2 :: bitsLE (n / 2) := by
  by_cases hn : n = 0
  · subst hn; simp [bitsLE, bitsLEAux]
  · obtain ⟨m, rfl⟩ : ∃ m, n = m + 1 := ⟨n - 1, by omega⟩
    simp only [bitsLE, bitsLEAux, if_neg hn]
    rw [bitsLEAux_congr m ((m + 1) / 2) ((m + 1) / 2) (by omega) (by omega)]

theorem bitsLE_lt_two (n : Nat) : ∀ d ∈ bitsLE n, d < 2 := by
  induction n using Nat.strong_induction_on with
  | _ n ih =>
    rw [bitsLE_eq]
    by_cases hn : n = 0
    · simp [hn]
    · simp only [if_neg hn, List.mem_cons]
      rintro d (rfl | hd)
      · omega
      · exact ih (n / 2) (by omega) d hd

theorem bitsLE_length_le : ∀ k n, n < 2 ^ k → (bitsLE n).length ≤ k := by
  intro k
  induction k with
  | zero =>
    intro n hn
    interval_cases n
    simp [bitsLE, bitsLEAux]
  | succ k ih =>
    intro n hn
    rw [bitsLE_eq]
    by_cases hn0 : n = 0
    · simp [hn0]
    · simp only [if_neg hn0, List.length_cons]
      have : n / 2 < 2 ^ k := by
        rw [Nat.div_lt_iff_lt_mul (by omega)]
        rw [Nat.pow_succ] at hn; omega
      have := ih (n / 2) this
      omega

theorem lt_two_pow_bitsLE_length (n : Nat) : n < 2 ^ (bitsLE n).length := by
  induction n using Nat.strong_induction_on with
  | _ n ih =>
    rw [bitsLE_eq]
    by_cases hn : n = 0
    · simp [hn]
    · simp only [if_neg hn, List.length_cons]
      have h2 := ih (n / 2) (by omega)
      rw [Nat.pow_succ]
      omega

/-- Binary representation of `n` at exactly `k` digits, least significant
first (proof-side companion of `toBinPad`). -/
def padLE : Nat → Nat → List Nat
  | _, 0 => []
  | n, k + 1 => n % 2 :: padLE (n / 2) k

theorem padLE_length : ∀ n k, (padLE n k).length = k := by
  intro n k
  induction k generalizing n with
  | zero => rfl
  | succ k ih => simp [padLE, ih]

theorem padLE_lt_two : ∀ k n, ∀ d ∈ padLE n k, d < 2 := by
  intro k
  induction k with
  | zero => simp [padLE]
  | succ k ih =>
    intro n d hd
    simp only [padLE, List.mem_cons] at hd
    rcases hd with rfl | hd
    · omega
    · exact ih (n / 2) d hd

theorem padLE_zero : ∀ k, padLE 0 k = List.replicate k 0 := by
  intro k
  induction k with
  | zero => rfl
  | succ k ih => simp [padLE, ih, List.replicate_succ]

theorem bitsLE_append_replicate :
    ∀ k n, 0 < n → n < 2 ^ k →
      bitsLE n ++ List.replicate (k - (bitsLE n).length) 0 = padLE n k := by
  intro k
  induction k with
  | zero => intro n h1 h2; omega
  | succ k ih =>
    intro n h1 h2
    rw [bitsLE_eq, if_neg (by omega)]
    have hdiv : n / 2 < 2 ^ k := by
      rw [Nat.div_lt_iff_lt_mul (by omega)]
      rw [Nat.pow_succ] at h2; omega
    by_cases hz : n / 2 = 0
    · have hb0 : bitsLE (n / 2) = [] := by rw [hz]; rfl
      simp only [padLE, hb0, List.length_cons, List.length_nil,
        List.cons_append, List.nil_append]
      rw [hz, padLE_zero]
      simp
    · have := ih (n / 2) (by omega) hdiv
      simp only [padLE, List.length_cons, List.cons_append]
      rw [show k + 1 - ((bitsLE (n / 2)).length + 1) = k - (bitsLE (n / 2)).length by omega]
      rw [this]

theorem toBinPad_eq_reverse_padLE (k n : Nat) (hk : 0 < k) (hn : n < 2 ^ k) :
    toBinPad n k = (padLE n k).reverse := by
  unfold toBinPad pyBin
  by_cases h0 : n = 0
  · subst h0
    obtain ⟨m, rfl⟩ : ∃ m, k = m + 1 := ⟨k - 1, by omega⟩
    rw [padLE_zero]
    simp only [if_pos rfl, List.length_cons, List.length_nil, List.reverse_replicate,
      Nat.add_sub_cancel]
    exact (List.replicate_succ' m 0).symm
  · rw [if_neg h0]
    have := bitsLE_append_replicate k n (by omega) hn
    rw [← this]
    simp only [List.reverse_append, List.reverse_replicate, List.reverse_reverse,
      List.length_reverse]

theorem byteVal_append_singleton (xs : List Nat) (d : Nat) :
    byteVal (xs ++ [d]) = 2 * byteVal xs + d := by
  unfold byteVal
  rw [List.foldl_append]
  rfl

theorem byteVal_reverse_padLE : ∀ k n, n < 2 ^ k → byteVal (padLE n k).reverse = n := by
  intro k
  induction k with
  | zero => intro n hn; interval_cases n; rfl
  | succ k ih =>
    intro n hn
    have hdiv : n / 2 < 2 ^ k := by
      rw [Nat.div_lt_iff_lt_mul (by omega)]
      rw [Nat.pow_succ] at hn; omega
    simp only [padLE, List.reverse_cons]
    rw [byteVal_append_singleton, ih (n / 2) hdiv]
    omega

theorem padLE_byteVal (ds : List Nat) (h2 : ∀ d ∈ ds, d < 2) :
    padLE (byteVal ds) ds.length = ds.reverse := by
  induction ds using List.reverseRecOn with
  | nil => rfl
  | append_singleton xs d ih =>
    have hd : d < 2 := h2 d (by simp)
    rw [byteVal_append_singleton]
    simp only [List.length_append, List.length_cons, List.length_nil, List.reverse_append,
      List.reverse_cons, List.reverse_nil, List.nil_append, List.cons_append]
    have : xs.length + 1 = xs.length + 1 := rfl
    show padLE (2 * byteVal xs + d) (xs.length + 1) = d :: xs.reverse
    simp only [padLE]
    rw [show (2 * byteVal xs + d) % 2 = d by omega,
      show (2 * byteVal xs + d) / 2 = byteVal xs by omega]
    rw [ih (fun e he => h2 e (by simp [he]))]

theorem foldl_byteVal (ds : List Nat) :
    ∀ a, ds.foldl (fun x d => 2 * x + d) a = a * 2 ^ ds.length + byteVal ds := by
  induction ds with
  | nil => intro a; simp [byteVal]
  | cons d t ih =>
    intro a
    simp only [List.foldl_cons, List.length_cons]
    rw [ih (2 * a + d)]
    have hbv : byteVal (d :: t) = d * 2 ^ t.length + byteVal t := by
      unfold byteVal
      simp only [List.foldl_cons]
      rw [ih (2 * 0 + d)]
      simp [byteVal]
    rw [hbv, Nat.pow_succ]
    ring

theorem byteVal_append (xs ys : List Nat) :
    byteVal (xs ++ ys) = byteVal xs * 2 ^ ys.length + byteVal ys := by
  unfold byteVal
  rw [List.foldl_append]
  exact foldl_byteVal ys _

theorem byteVal_lt (ds : List Nat) (h2 : ∀ d ∈ ds, d < 2) :
    byteVal ds < 2 ^ ds.length := by
  induction ds with
  | nil => simp [byteVal]
  | cons d t ih =>
    have hd : d < 2 := h2 d (by simp)
    have hbv : byteVal (d :: t) = d * 2 ^ t.length + byteVal t := by
      unfold byteVal
      simp only [List.foldl_cons]
      rw [foldl_byteVal]
      simp [byteVal]
    rw [hbv]
    have := ih (fun e he => h2 e (by simp [he]))
    simp only [List.length_cons, Nat.pow_succ]
    have hd1 : d ≤ 1 := by omega
    nlinarith [Nat.two_pow_pos t.length]

theorem byteVal_toBinPad (k n : Nat) (hk : 0 < k) (hn : n < 2 ^ k) :
    byteVal (toBinPad n k) = n := by
  rw [toBinPad_eq_reverse_padLE k n hk hn]
  exact byteVal_reverse_padLE k n hn

theorem toBinPad_byteVal (ds : List Nat) (hne : ds ≠ []) (h2 : ∀ d ∈ ds, d < 2) :
    toBinPad (byteVal ds) ds.length = ds := by
  have hlt : byteVal ds < 2 ^ ds.length := byteVal_lt ds h2
  rw [toBinPad_eq_reverse_padLE ds.length (byteVal ds)
    (by cases ds with | nil => exact absurd rfl hne | cons a l => simp) hlt]
  rw [padLE_byteVal ds h2, List.reverse_reverse]

theorem toBinPad_length (k n : Nat) (hk : 0 < k) (hn : n < 2 ^ k) :
    (toBinPad n k).length = k := by
  rw [toBinPad_eq_reverse_padLE k n hk hn, List.length_reverse, padLE_length]

theorem toBinPad_lt_two (n k : Nat) : ∀ d ∈ toBinPad n k, d < 2 := by
  intro d hd
  unfold toBinPad pyBin at hd
  simp only [List.mem_append, List.mem_replicate] at hd
  rcases hd with ⟨_, rfl⟩ | hd
  · omega
  · by_cases h0 : n = 0
    · simp [h0] at hd; omega
    · rw [if_neg h0, List.mem_reverse] at hd
      exact bitsLE_lt_two n d hd

theorem toBinPad_length_of_ge (k n : Nat) (h : 2 ^ k ≤ n) :
    k < (toBinPad n k).length := by
  have hn0 : n ≠ 0 := by have := Nat.pos_pow_of_pos k (show 0 < 2 by omega); omega
  have hlen : k < (bitsLE n).length := by
    by_contra hle
    push_neg at hle
    have := lt_two_pow_bitsLE_length n
    have : n < 2 ^ k := lt_of_lt_of_le this (Nat.pow_le_pow_right (by omega) hle)
    omega
  unfold toBinPad pyBin
  rw [if_neg hn0]
  simp only [List.length_append, List.length_replicate, List.length_reverse]
  omega

/-! ### Properties of byte packing -/

theorem packBitsAux_congr : ∀ f g ds, ds.length ≤ f → ds.length ≤ g →
    packBitsAux f ds = packBitsAux g ds := by
  intro f
  induction f with
  | zero =>
    intro g ds hf _
    have : ds = [] := List.eq_nil_of_length_eq_zero (by omega)
    subst this
    cases g <;> rfl
  | succ f ih =>
    intro g ds hf hg
    cases ds with
    | nil => cases g <;> rfl
    | cons d t =>
      obtain ⟨g', rfl⟩ : ∃ g', g = g' + 1 := ⟨g - 1, by simp at hg; omega⟩
      simp only [packBitsAux]
      congr 1
      apply ih
      · simp only [List.length_drop, List.length_cons] at *
        omega
      · simp only [List.length_drop, List.length_cons] at *
        omega

theorem packBits_cons (d : Nat) (ds : List Nat) :
    packBits (d :: ds) = byteVal ((d :: ds).take 8) :: packBits ((d :: ds).drop 8) := by
  show packBitsAux (d :: ds).length (d :: ds) = _
  obtain ⟨f, hf⟩ : ∃ f, (d :: ds).length = f + 1 := ⟨ds.length, by simp⟩
  rw [hf]
  simp only [packBitsAux]
  congr 1
  apply packBitsAux_congr
  · simp only [List.length_drop]
    omega
  · exact le_refl _

theorem packBits_nil : packBits [] = [] := rfl

theorem packBits_chunk (c ds : List Nat) (hc : c.length = 8) :
    packBits (c ++ ds) = byteVal c :: packBits ds := by
  cases c with
  | nil => simp at hc
  | cons d t =>
    rw [List.cons_append, packBits_cons, ← List.cons_append]
    rw [List.take_append_of_le_length (by omega), List.drop_append_of_le_length (by omega)]
    rw [List.take_of_length_le (by omega), List.drop_eq_nil_of_le (by omega)]
    simp

theorem packBits_single (ds : List Nat) (h : ds.length = 8) :
    packBits ds = [byteVal ds] := by
  have := packBits_chunk ds [] h
  simpa using this

theorem packBits_append_of_mod (ds1 ds2 : List Nat) (h : ds1.length % 8 = 0) :
    packBits (ds1 ++ ds2) = packBits ds1 ++ packBits ds2 := by
  suffices H : ∀ n ds1, ds1.length = n → ds1.length % 8 = 0 → ∀ ds2,
      packBits (ds1 ++ ds2) = packBits ds1 ++ packBits ds2 by
    exact H ds1.length ds1 rfl h ds2
  intro n
  induction n using Nat.strong_induction_on with
  | _ n ih =>
    intro ds1 hn h ds2
    by_cases h0 : ds1 = []
    · subst h0; simp [packBits_nil]
    · have hlen : 8 ≤ ds1.length := by
        rcases Nat.lt_or_ge ds1.length 8 with hlt | hge
        · exfalso
          have : ds1.length = 0 := by omega
          exact h0 (List.eq_nil_of_length_eq_zero this)
        · exact hge
      have hsplit : ds1 = ds1.take 8 ++ ds1.drop 8 := (List.take_append_drop 8 ds1).symm
      have htl : (ds1.take 8).length = 8 := by
        rw [List.length_take]
        omega
      calc packBits (ds1 ++ ds2)
          = packBits ((ds1.take 8 ++ ds1.drop 8) ++ ds2) := by rw [← hsplit]
        _ = packBits (ds1.take 8 ++ (ds1.drop 8 ++ ds2)) := by rw [List.append_assoc]
        _ = byteVal (ds1.take 8) :: packBits (ds1.drop 8 ++ ds2) := packBits_chunk _ _ htl
        _ = byteVal (ds1.take 8) :: (packBits (ds1.drop 8) ++ packBits ds2) := by
              rw [ih (ds1.drop 8).length (by simp [List.length_drop]; omega) (ds1.drop 8)
                rfl (by simp [List.length_drop]; omega) ds2]
        _ = (byteVal (ds1.take 8) :: packBits (ds1.drop 8)) ++ packBits ds2 := by simp
        _ = packBits (ds1.take 8 ++ ds1.drop 8) ++ packBits ds2 := by
              rw [packBits_chunk _ _ htl]
        _ = packBits ds1 ++ packBits ds2 := by rw [← hsplit]

theorem packBits_pair (ds : List Nat) (h : ds.length = 16) :
    packBits ds = [byteVal (ds.take 8), byteVal (ds.drop 8)] := by
  have hsplit : ds = ds.take 8 ++ ds.drop 8 := (List.take_append_drop 8 ds).symm
  have htl : (ds.take 8).length = 8 := by rw [List.length_take]; omega
  have hdl : (ds.drop 8).length = 8 := by rw [List.length_drop]; omega
  conv_lhs => rw [hsplit]
  rw [packBits_chunk _ _ htl, packBits_single _ hdl]

theorem unpackBytes_cons (b : Nat) (bs : List Nat) :
    unpackBytes (b :: bs) = toBinPad b 8 ++ unpackBytes bs := by
  simp [unpackBytes]

theorem unpackBytes_packBits (ds : List Nat) (hmod : ds.length % 8 = 0)
    (h2 : ∀ d ∈ ds, d < 2) :
    unpackBytes (packBits ds) = ds := by
  suffices H : ∀ n ds, ds.length = n → ds.length % 8 = 0 → (∀ d ∈ ds, d < 2) →
      unpackBytes (packBits ds) = ds by
    exact H ds.length ds rfl hmod h2
  intro n
  induction n using Nat.strong_induction_on with
  | _ n ih =>
    intro ds hn hmod h2
    by_cases h0 : ds = []
    · subst h0; rfl
    · have hlen : 8 ≤ ds.length := by
        rcases Nat.lt_or_ge ds.length 8 with hlt | hge
        · exfalso
          have : ds.length = 0 := by omega
          exact h0 (List.eq_nil_of_length_eq_zero this)
        · exact hge
      have hsplit : ds = ds.take 8 ++ ds.drop 8 := (List.take_append_drop 8 ds).symm
      have htl : (ds.take 8).length = 8 := by rw [List.length_take]; omega
      have h2t : ∀ d ∈ ds.take 8, d < 2 := fun d hd => h2 d (List.take_subset _ _ hd)
      have h2d : ∀ d ∈ ds.drop 8, d < 2 := fun d hd => h2 d (List.drop_subset _ _ hd)
      calc unpackBytes (packBits ds)
          = unpackBytes (packBits (ds.take 8 ++ ds.drop 8)) := by rw [← hsplit]
        _ = unpackBytes (byteVal (ds.take 8) :: packBits (ds.drop 8)) := by
              rw [packBits_chunk _ _ htl]
        _ = toBinPad (byteVal (ds.take 8)) 8 ++ unpackBytes (packBits (ds.drop 8)) :=
              unpackBytes_cons _ _
        _ = ds.take 8 ++ ds.drop 8 := by
              have h1 : toBinPad (byteVal (ds.take 8)) 8 = ds.take 8 := by
                have ht := toBinPad_byteVal (ds.take 8)
                  (by intro hemp; rw [hemp] at htl; simp at htl) h2t
                rwa [htl] at ht
              rw [h1, ih (ds.drop 8).length (by simp [List.length_drop]; omega) (ds.drop 8)
                rfl (by simp [List.length_drop]; omega) h2d]
        _ = ds := by rw [← hsplit]

theorem unpackBytes_lt_two (bytes : List Nat) : ∀ d ∈ unpackBytes bytes, d < 2 := by
  intro d hd
  unfold unpackBytes at hd
  rw [List.mem_flatten] at hd
  obtain ⟨l, hl, hdl⟩ := hd
  rw [List.mem_map] at hl
  obtain ⟨b, _, rfl⟩ := hl
  exact toBinPad_lt_two b 8 d hdl

theorem unpackBytes_length (bytes : List Nat) (h : ∀ b ∈ bytes, b < 256) :
    (unpackBytes bytes).length = 8 * bytes.length := by
  induction bytes with
  | nil => rfl
  | cons b bs ih =>
    rw [unpackBytes_cons]
    have hb : b < 256 := h b (by simp)
    rw [List.length_append, toBinPad_length 8 b (by omega) (by norm_num; omega),
      ih (fun c hc => h c (by simp [hc]))]
    simp only [List.length_cons]
    ring

theorem fromBytesBE_pair (a b : Nat) : fromBytesBE [a, b] = 256 * a + b := by
  simp [fromBytesBE]

theorem fromBytesBE_single (a : Nat) : fromBytesBE [a] = a := by
  simp [fromBytesBE]

/-- Reading a 16-bit field back: the two bytes obtained by packing
`"{0:016b}".format(n)` decode, big-endian, to `n`. -/
theorem fromBytesBE_packBits_toBinPad16 (n : Nat) (hn : n < 2 ^ 16) :
    fromBytesBE (packBits (toBinPad n 16)) = n := by
  have hlen : (toBinPad n 16).length = 16 := toBinPad_length 16 n (by omega) hn
  rw [packBits_pair _ hlen, fromBytesBE_pair]
  have hdl : ((toBinPad n 16).drop 8).length = 8 := by rw [List.length_drop, hlen]
  have hsplit := (List.take_append_drop 8 (toBinPad n 16)).symm
  have hval : byteVal ((toBinPad n 16).take 8 ++ (toBinPad n 16).drop 8) = n := by
    rw [← hsplit]
    exact byteVal_toBinPad 16 n (by omega) hn
  rw [byteVal_append, hdl] at hval
  omega

/-! ### Properties of the decode fill loop -/

theorem fillRow_ok (bs : List Nat) : ∀ w i, i + w ≤ bs.length →
    fillRow bs w i = .ok ((bs.drop i).take w) := by
  intro w
  induction w with
  | zero => intro i _; simp [fillRow]
  | succ w ih =>
    intro i hle
    have hi : i < bs.length := by omega
    simp only [fillRow, List.getElem?_eq_getElem hi]
    rw [ih (i + 1) (by omega)]
    rw [List.drop_eq_getElem_cons hi, List.take_succ_cons]

theorem fillRow_err (bs : List Nat) : ∀ w i, 1 ≤ w → bs.length < i + w →
    fillRow bs w i = .error .indexError := by
  intro w
  induction w with
  | zero => intro i h1 _; omega
  | succ w ih =>
    intro i _ hlt
    by_cases hi : i < bs.length
    · have hw : 1 ≤ w := by omega
      simp only [fillRow, List.getElem?_eq_getElem hi]
      rw [ih (i + 1) hw (by omega)]
    · have hnone : bs[i]? = none := List.getElem?_eq_none (by omega)
      simp only [fillRow, hnone]

theorem fillBW_flatten (w : Nat) :
    ∀ (cells : List (List Nat)) (pre suf : List Nat),
      (∀ r ∈ cells, r.length = w) →
      fillBW (pre ++ (cells.flatten ++ suf)) w cells.length pre.length = .ok cells := by
  intro cells
  induction cells with
  | nil => intro pre suf _; simp [fillBW]
  | cons row rest ih =>
    intro pre suf hrect
    have hrow : row.length = w := hrect row (by simp)
    have hflat : (row :: rest).flatten = row ++ rest.flatten := List.flatten_cons ..
    have hbs : pre ++ ((row :: rest).flatten ++ suf) =
        pre ++ (row ++ (rest.flatten ++ suf)) := by
      rw [hflat, List.append_assoc]
    have hlen : pre.length + w ≤ (pre ++ (row ++ (rest.flatten ++ suf))).length := by
      simp only [List.length_append]
      omega
    have hbs2 : pre ++ (row ++ (rest.flatten ++ suf)) =
        (pre ++ row) ++ (rest.flatten ++ suf) := by rw [List.append_assoc]
    have hidx : pre.length + w = (pre ++ row).length := by
      rw [List.length_append, hrow]
    have hfr : fillRow (pre ++ (row ++ (rest.flatten ++ suf))) w pre.length
        = .ok row := by
      rw [fillRow_ok _ w pre.length hlen, List.drop_left' rfl, List.take_left' hrow]
    have hfb : fillBW (pre ++ (row ++ (rest.flatten ++ suf))) w rest.length
        (pre.length + w) = .ok rest := by
      rw [hbs2, hidx]
      exact ih (pre ++ row) suf (fun r hr => hrect r (by simp [hr]))
    rw [hbs]
    simp only [List.length_cons, fillBW, hfr, hfb]

theorem fillBW_err (bs : List Nat) (w : Nat) :
    ∀ h i, 1 ≤ w → 1 ≤ h → bs.length < i + w * h →
      fillBW bs w h i = .error .indexError := by
  intro h
  induction h with
  | zero => intro i _ h1 _; omega
  | succ h ih =>
    intro i hw _ hlt
    rw [Nat.mul_succ] at hlt
    by_cases hbound : bs.length < i + w
    · simp only [fillBW, fillRow_err bs w i hw hbound]
    · push_neg at hbound
      have hh : 1 ≤ h := by
        by_contra hh0
        have : h = 0 := by omega
        subst this
        simp at hlt
        omega
      simp only [fillBW, fillRow_ok bs w i hbound]
      rw [ih (i + w) hw hh (by omega)]

theorem fillBW_ok (bs : List Nat) (w : Nat) :
    ∀ h i, i + w * h ≤ bs.length →
      ∃ rows, fillBW bs w h i = .ok rows ∧ rows.length = h ∧
        ∀ r ∈ rows, r.length = w ∧ ∀ p ∈ r, p ∈ bs := by
  intro h
  induction h with
  | zero => intro i _; exact ⟨[], by simp [fillBW]⟩
  | succ h ih =>
    intro i hle
    rw [Nat.mul_succ] at hle
    have hrow : i + w ≤ bs.length := by nlinarith [Nat.zero_le (w * h)]
    obtain ⟨rows, heq, hlen, hprop⟩ := ih (i + w) (by omega)
    refine ⟨(bs.drop i).take w :: rows, ?_, by simp [hlen], ?_⟩
    · simp only [fillBW, fillRow_ok bs w i hrow, heq]
    · intro r hr
      rcases List.mem_cons.1 hr with rfl | hr
      · constructor
        · rw [List.length_take, List.length_drop]
          omega
        · intro p hp
          exact List.drop_subset i bs (List.take_subset _ _ hp)
      · exact hprop r hr

/-! ### Properties of construction and encoding -/

theorem mk'_ok (cells : List (List Nat)) (f : Nat) (hne : cells ≠ [])
    (hrect : ∀ r ∈ cells, r.length = cells.headI.length)
    (hpix : f = 0 → ∀ r ∈ cells, ∀ p ∈ r, p ≤ 1) :
    Image.mk' cells f = .ok ⟨cells, f⟩ := by
  cases cells with
  | nil => exact absurd rfl hne
  | cons r0 rest =>
    simp only [List.headI] at hrect
    have h1 : ((r0 :: rest).all fun row => row.length == r0.length) = true := by
      rw [List.all_eq_true]
      intro r hr
      simp [hrect r hr]
    have h2 : validate_array (r0 :: rest) f = true := by
      unfold validate_array
      by_cases hf : f = 0
      · rw [if_pos hf, List.all_eq_true]
        intro r hr
        rw [List.all_eq_true]
        intro p hp
        have := hpix hf r hr p hp
        have h01 : p = 0 ∨ p = 1 := by omega
        rcases h01 with rfl | rfl <;> simp
      · rw [if_neg hf]
    simp only [Image.mk', h1, h2, if_true]

theorem decDigits_of_le_one (p : Nat) (hp : p ≤ 1) : decDigits p = [p] := by
  interval_cases p <;> rfl

theorem flatten_map_decDigits (l : List Nat) (h : ∀ p ∈ l, p ≤ 1) :
    (l.map decDigits).flatten = l := by
  induction l with
  | nil => rfl
  | cons p t ih =>
    simp only [List.map_cons, List.flatten_cons]
    rw [decDigits_of_le_one p (h p (by simp)), ih (fun q hq => h q (by simp [hq]))]
    rfl

theorem data_to_binary_bw (img : Image) (hf : img._image_format = 0)
    (hpix : ∀ p ∈ img._data.flatten, p ≤ 1) :
    data_to_binary img = img._data.flatten := by
  unfold data_to_binary
  rw [if_pos hf, flatten_map_decDigits _ hpix]

theorem missingBits_spec (len : Nat) : (len + missingBits len) % 8 = 0 := by
  unfold missingBits
  split <;> omega

theorem missingBits_le (len : Nat) : missingBits len ≤ 7 := by
  unfold missingBits
  split <;> omega

theorem paddedBits_lt_two (img : Image) (hpix : ∀ p ∈ img._data.flatten, p ≤ 1) :
    ∀ d ∈ paddedBits img, d < 2 := by
  intro d hd
  unfold paddedBits binaryData at hd
  simp only [List.append_assoc, List.mem_append, List.mem_replicate] at hd
  rcases hd with hd | hd | hd | hd | ⟨_, rfl⟩
  · exact toBinPad_lt_two _ _ d hd
  · exact toBinPad_lt_two _ _ d hd
  · exact toBinPad_lt_two _ _ d hd
  · unfold data_to_binary at hd
    split at hd
    · rw [List.mem_flatten] at hd
      obtain ⟨l, hl, hdl⟩ := hd
      rw [List.mem_map] at hl
      obtain ⟨p, hp, rfl⟩ := hl
      rw [decDigits_of_le_one p (hpix p hp)] at hdl
      have := hpix p hp
      simp at hdl
      omega
    · simp at hd
  · omega

theorem write_to_file_ok (img : Image) (hpix : ∀ p ∈ img._data.flatten, p ≤ 1) :
    write_to_file img = .ok (writeBytes img) := by
  unfold write_to_file
  rw [if_pos]
  rw [List.all_eq_true]
  intro d hd
  simpa using paddedBits_lt_two img hpix d hd

/-- Decoding the byte stream produced by `write_to_file` recovers the
original array and format, for any valid black-and-white grid whose
dimensions fit the 16-bit header fields. -/
theorem from_file_writeBytes (cells : List (List Nat)) (hne : cells ≠ [])
    (hw : cells.headI.length ≤ 65535) (hh : cells.length ≤ 65535)
    (hrect : ∀ r ∈ cells, r.length = cells.headI.length)
    (hpix : ∀ r ∈ cells, ∀ p ∈ r, p ≤ 1) :
    from_file (writeBytes ⟨cells, 0⟩) = .ok ⟨cells, 0⟩ := by
  have h216 : (2 : Nat) ^ 16 = 65536 := by norm_num
  have hpixf : ∀ p ∈ cells.flatten, p ≤ 1 := by
    intro p hp
    rw [List.mem_flatten] at hp
    obtain ⟨r, hr, hpr⟩ := hp
    exact hpix r hr p hpr
  have hw16 : cells.headI.length < 2 ^ 16 := by omega
  have hh16 : cells.length < 2 ^ 16 := by omega
  have hlw : (toBinPad cells.headI.length 16).length = 16 :=
    toBinPad_length _ _ (by omega) hw16
  have hlh : (toBinPad cells.length 16).length = 16 :=
    toBinPad_length _ _ (by omega) hh16
  have hl0 : (toBinPad 0 8).length = 8 :=
    toBinPad_length _ _ (by omega) (by omega)
  have hbd : binaryData ⟨cells, 0⟩ =
      toBinPad cells.headI.length 16 ++ (toBinPad cells.length 16 ++
        (toBinPad 0 8 ++ cells.flatten)) := by
    unfold binaryData
    rw [data_to_binary_bw ⟨cells, 0⟩ rfl hpixf]
    simp only [Image.width, Image.height, List.append_assoc]
  have hlenB : (binaryData ⟨cells, 0⟩).length = 40 + cells.flatten.length := by
    rw [hbd]
    simp only [List.length_append, hlw, hlh, hl0]
    omega
  have hpad : paddedBits ⟨cells, 0⟩ =
      toBinPad cells.headI.length 16 ++ (toBinPad cells.length 16 ++
        (toBinPad 0 8 ++ (cells.flatten ++
          List.replicate (missingBits (40 + cells.flatten.length)) 0))) := by
    unfold paddedBits
    rw [hlenB, hbd]
    simp only [List.append_assoc]
  have hPBmod : (cells.flatten ++
      List.replicate (missingBits (40 + cells.flatten.length)) 0).length % 8 = 0 := by
    have := missingBits_spec (40 + cells.flatten.length)
    simp only [List.length_append, List.length_replicate]
    omega
  have hPBlt2 : ∀ d ∈ cells.flatten ++
      List.replicate (missingBits (40 + cells.flatten.length)) 0, d < 2 := by
    intro d hd
    rcases List.mem_append.1 hd with hd | hd
    · have := hpixf d hd
      omega
    · rw [List.mem_replicate] at hd
      omega
  have hWp : packBits (toBinPad cells.headI.length 16) =
      [byteVal ((toBinPad cells.headI.length 16).take 8),
       byteVal ((toBinPad cells.headI.length 16).drop 8)] := packBits_pair _ hlw
  have hHp : packBits (toBinPad cells.length 16) =
      [byteVal ((toBinPad cells.length 16).take 8),
       byteVal ((toBinPad cells.length 16).drop 8)] := packBits_pair _ hlh
  have hZp : packBits (toBinPad 0 8) = [byteVal (toBinPad 0 8)] := packBits_single _ hl0
  have hwb : writeBytes ⟨cells, 0⟩ =
      [76, 73, 77, 71,
       byteVal ((toBinPad cells.headI.length 16).take 8),
       byteVal ((toBinPad cells.headI.length 16).drop 8),
       byteVal ((toBinPad cells.length 16).take 8),
       byteVal ((toBinPad cells.length 16).drop 8),
       byteVal (toBinPad 0 8)] ++
        packBits (cells.flatten ++
          List.replicate (missingBits (40 + cells.flatten.length)) 0) := by
    unfold writeBytes limgSignature
    rw [hpad, packBits_append_of_mod _ _ (by simp [hlw]),
      packBits_append_of_mod _ _ (by simp [hlh]),
      packBits_append_of_mod _ _ (by simp [hl0]),
      hWp, hHp, hZp]
    simp
  have hwval : fromBytesBE [byteVal ((toBinPad cells.headI.length 16).take 8),
      byteVal ((toBinPad cells.headI.length 16).drop 8)] = cells.headI.length := by
    rw [← hWp]
    exact fromBytesBE_packBits_toBinPad16 _ hw16
  have hhval : fromBytesBE [byteVal ((toBinPad cells.length 16).take 8),
      byteVal ((toBinPad cells.length 16).drop 8)] = cells.length := by
    rw [← hHp]
    exact fromBytesBE_packBits_toBinPad16 _ hh16
  have hzval : fromBytesBE [byteVal (toBinPad 0 8)] = 0 := by
    rw [fromBytesBE_single]
    exact byteVal_toBinPad 8 0 (by omega) (by omega)
  have hup : unpackBytes (packBits (cells.flatten ++
      List.replicate (missingBits (40 + cells.flatten.length)) 0)) =
      cells.flatten ++ List.replicate (missingBits (40 + cells.flatten.length)) 0 :=
    unpackBytes_packBits _ hPBmod hPBlt2
  have hfill : fillBW (cells.flatten ++
      List.replicate (missingBits (40 + cells.flatten.length)) 0)
      cells.headI.length cells.length 0 = .ok cells := by
    have := fillBW_flatten cells.headI.length cells []
      (List.replicate (missingBits (40 + cells.flatten.length)) 0) hrect
    simpa using this
  rw [hwb]
  simp only [from_file]
  rw [if_pos (by rfl)]
  simp only [List.cons_append, List.drop_succ_cons, List.drop_zero,
    List.take_succ_cons, List.take_zero, List.nil_append]
  rw [hwval, hhval, hzval]
  simp only [binary_to_data, if_true]
  rw [hup, hfill]
  exact mk'_ok cells 0 hne hrect (fun _ => hpix)

/-- Constructing an image from a `height × width` zero array succeeds for
any format once there is at least one row. -/
theorem mk'_replicate (w h f : Nat) (hh : 1 ≤ h) :
    Image.mk' (List.replicate h (List.replicate w 0)) f =
      .ok ⟨List.replicate h (List.replicate w 0), f⟩ := by
  have hcons : List.replicate h (List.replicate w 0) =
      List.replicate w 0 :: List.replicate (h - 1) (List.replicate w 0) := by
    rw [← List.replicate_succ]
    congr 1
    omega
  apply mk'_ok
  · rw [hcons]
    exact List.cons_ne_nil _ _
  · intro r hr
    have hr' := List.eq_of_mem_replicate hr
    rw [hcons, hr']
    simp
  · intro _ r hr p hp
    have hr' := List.eq_of_mem_replicate hr
    rw [hr'] at hp
    have := List.eq_of_mem_replicate hp
    omega

/-! ## The claims -/

/-- C1: Round-trip — for every valid BlackAndWhite grid (rectangular,
width and height between 1 and 65535, every cell 0 or 1) the grid passes
construction, `write_to_file` succeeds, and decoding the produced byte
stream with `from_file` yields an `Image` equal to the original in every
field (hence in width, height, format tag and every cell), including
non-square grids, whose dimensions are not swapped. -/
theorem C1_round_trip (cells : List (List Nat)) (hne : cells ≠ [])
    (_hw1 : 1 ≤ cells.headI.length) (_hh1 : 1 ≤ cells.length)
    (hw : cells.headI.length ≤ 65535) (hh : cells.length ≤ 65535)
    (hrect : ∀ r ∈ cells, r.length = cells.headI.length)
    (hpix : ∀ r ∈ cells, ∀ p ∈ r, p ≤ 1) :
    Image.mk' cells 0 = .ok ⟨cells, 0⟩ ∧
    write_to_file ⟨cells, 0⟩ = .ok (writeBytes ⟨cells, 0⟩) ∧
    from_file (writeBytes ⟨cells, 0⟩) = .ok ⟨cells, 0⟩ := by
  have hpixf : ∀ p ∈ cells.flatten, p ≤ 1 := by
    intro p hp
    rw [List.mem_flatten] at hp
    obtain ⟨r, hr, hpr⟩ := hp
    exact hpix r hr p hpr
  exact ⟨mk'_ok cells 0 hne hrect (fun _ => hpix),
    write_to_file_ok ⟨cells, 0⟩ hpixf,
    from_file_writeBytes cells hne hw hh hrect hpix⟩

/-- C1 witness: a concrete non-square 3-wide, 5-tall grid round-trips
unswapped. -/
theorem C1_round_trip_witness :
    from_file (writeBytes ⟨[[1,0,1],[0,1,0],[1,1,0],[0,0,1],[1,0,0]], 0⟩) =
      .ok ⟨[[1,0,1],[0,1,0],[1,1,0],[0,0,1],[1,0,0]], 0⟩ :=
  (C1_round_trip [[1,0,1],[0,1,0],[1,1,0],[0,0,1],[1,0,0]] (by decide) (by decide)
    (by decide) (by decide) (by decide) (by decide) (by decide)).2.2

/-- C2: Bit-packing exactness and padding — encoding the 1×8 grid
`[[1,0,1,1,0,0,1,0]]` yields exactly the payload byte `0xB2 = 178` after
the 9-byte header, and encoding the 1×1 grid `[[1]]` yields exactly the
payload byte `0x80 = 128` (one data bit plus seven zero padding bits). -/
theorem C2_bit_packing :
    write_to_file ⟨[[1,0,1,1,0,0,1,0]], 0⟩ =
      .ok [76, 73, 77, 71, 0, 8, 0, 1, 0, 178] ∧
    write_to_file ⟨[[1]], 0⟩ = .ok [76, 73, 77, 71, 0, 1, 0, 1, 0, 128] :=
  ⟨rfl, rfl⟩

/-- C3 counterexample: a stream with the LIMG signature and format byte 5
(not the BlackAndWhite tag 0) decodes successfully into a 1×1 zero grid —
`from_file` does not fail on an unknown format tag. -/
theorem C3_counterexample :
    from_file [76, 73, 77, 71, 0, 1, 0, 1, 5, 0] = .ok ⟨[[0]], 5⟩ := rfl

/-- C3 (amended): for any header with an unrecognised format byte
`f ≠ 0` and height at least 1, `from_file` does not raise an
unknown-format error; it ignores the payload and returns an all-zero grid
of the declared dimensions, tagged with the unknown format. -/
theorem C3_unknown_format_amended (b4 b5 b6 b7 f : Nat) (payload : List Nat)
    (hf : f ≠ 0) (hh : 1 ≤ 256 * b6 + b7) :
    from_file ([76, 73, 77, 71, b4, b5, b6, b7, f] ++ payload) =
      .ok ⟨List.replicate (256 * b6 + b7) (List.replicate (256 * b4 + b5) 0), f⟩ := by
  simp only [from_file]
  rw [if_pos (by rfl)]
  simp only [List.cons_append, List.drop_succ_cons, List.drop_zero,
    List.take_succ_cons, List.take_zero, List.nil_append]
  rw [fromBytesBE_pair, fromBytesBE_pair, fromBytesBE_single]
  simp only [binary_to_data]
  rw [if_neg hf]
  exact mk'_replicate _ _ f hh

/-- C3 amended witness: format byte 5, declared size 0×1, empty payload. -/
theorem C3_unknown_format_amended_witness :
    from_file ([76, 73, 77, 71, 0, 0, 0, 1, 5] ++ []) =
      .ok ⟨List.replicate (256 * 0 + 1) (List.replicate (256 * 0 + 0) 0), 5⟩ :=
  C3_unknown_format_amended 0 0 0 1 5 [] (by decide) (by decide)

/-- C4 counterexample: a complete header declaring a 4×0 BlackAndWhite
grid needs `ceil(0/8) = 0` payload bytes, and 0 are supplied, so by the
claim decoding must succeed — but the code fails (with an untyped
IndexError, from `len(array[0])` on the empty decoded array). -/
theorem C4_counterexample :
    from_file [76, 73, 77, 71, 0, 4, 0, 0, 0] = .error PyErr.indexError := rfl

/-- C4 (amended): for a valid signature, a complete header with a known
format (tag 0) and height at least 1, and byte-valued payload entries,
decoding fails — with an untyped `IndexError`, not a typed format error —
exactly when the payload holds fewer than `ceil(width*height/8)` bytes,
and succeeds (extra trailing bytes ignored) when at least that many are
present. -/
theorem C4_truncated_payload_amended (b4 b5 b6 b7 : Nat) (payload : List Nat)
    (hbytes : ∀ b ∈ payload, b < 256) (hh : 1 ≤ 256 * b6 + b7) :
    (payload.length < ((256 * b4 + b5) * (256 * b6 + b7) + 7) / 8 →
      from_file ([76, 73, 77, 71, b4, b5, b6, b7, 0] ++ payload) =
        .error PyErr.indexError) ∧
    (((256 * b4 + b5) * (256 * b6 + b7) + 7) / 8 ≤ payload.length →
      ∃ img, from_file ([76, 73, 77, 71, b4, b5, b6, b7, 0] ++ payload) = .ok img ∧
        img.height = 256 * b6 + b7 ∧ img.width = 256 * b4 + b5 ∧
        img._image_format = 0) := by
  have hstr : (unpackBytes payload).length = 8 * payload.length :=
    unpackBytes_length payload hbytes
  have hcommon : from_file ([76, 73, 77, 71, b4, b5, b6, b7, 0] ++ payload) =
      match fillBW (unpackBytes payload) (256 * b4 + b5) (256 * b6 + b7) 0 with
      | .error e => .error e
      | .ok arr => Image.mk' arr 0 := by
    simp only [from_file]
    rw [if_pos (by rfl)]
    simp only [List.cons_append, List.drop_succ_cons, List.drop_zero,
      List.take_succ_cons, List.take_zero, List.nil_append]
    rw [fromBytesBE_pair, fromBytesBE_pair, fromBytesBE_single]
    simp only [binary_to_data, if_true]
  constructor
  · intro hlt
    have hbits : 8 * payload.length < (256 * b4 + b5) * (256 * b6 + b7) := by omega
    have hpos : 0 < (256 * b4 + b5) * (256 * b6 + b7) := by omega
    have hw1 : 1 ≤ 256 * b4 + b5 := by
      rcases Nat.eq_zero_or_pos (256 * b4 + b5) with h0 | h1
      · rw [h0, Nat.zero_mul] at hpos
        omega
      · exact h1
    rw [hcommon, fillBW_err (unpackBytes payload) (256 * b4 + b5) (256 * b6 + b7) 0
      hw1 hh (by omega)]
  · intro hge
    have hbits : 0 + (256 * b4 + b5) * (256 * b6 + b7) ≤ (unpackBytes payload).length := by
      omega
    obtain ⟨rows, heq, hlen, hprop⟩ :=
      fillBW_ok (unpackBytes payload) (256 * b4 + b5) (256 * b6 + b7) 0 hbits
    have hrne : rows ≠ [] := by
      intro h0
      rw [h0] at hlen
      simp at hlen
      omega
    have hhead : rows.headI.length = 256 * b4 + b5 := by
      cases rows with
      | nil => exact absurd rfl hrne
      | cons r0 rest => exact (hprop r0 (by simp)).1
    refine ⟨⟨rows, 0⟩, ?_, ?_, ?_, rfl⟩
    · rw [hcommon, heq]
      apply mk'_ok rows 0 hrne
      · intro r hr
        rw [(hprop r hr).1, hhead]
      · intro _ r hr p hp
        have hmem := (hprop r hr).2 p hp
        have := unpackBytes_lt_two payload p hmem
        omega
    · simp [Image.height, hlen]
    · simp [Image.width, hhead]

/-- C4 amended witness: 1×1 grid declared, empty payload (one byte
needed but zero supplied): untyped IndexError. -/
theorem C4_truncated_payload_amended_witness :
    from_file ([76, 73, 77, 71, 0, 1, 0, 1, 0] ++ []) = .error PyErr.indexError :=
  (C4_truncated_payload_amended 0 1 0 1 [] (by simp) (by decide)).1 (by decide)

/-- C5 counterexample: a valid BlackAndWhite grid with height
65536 > 65535 passes construction, and `write_to_file` succeeds and
produces output instead of failing with any range error. -/
theorem C5_counterexample :
    65535 < (⟨List.replicate 65536 [1], 0⟩ : Image).height ∧
    Image.mk' (List.replicate 65536 [1]) 0 = .ok ⟨List.replicate 65536 [1], 0⟩ ∧
    write_to_file ⟨List.replicate 65536 [1], 0⟩ =
      .ok (writeBytes ⟨List.replicate 65536 [1], 0⟩) := by
  have hmem : ∀ r ∈ List.replicate 65536 ([1] : List Nat), r = [1] :=
    fun r hr => List.eq_of_mem_replicate hr
  have hpixf : ∀ p ∈ (List.replicate 65536 ([1] : List Nat)).flatten, p ≤ 1 := by
    intro p hp
    rw [List.mem_flatten] at hp
    obtain ⟨r, hr, hpr⟩ := hp
    rw [hmem r hr] at hpr
    simp at hpr
    omega
  have hcons : List.replicate 65536 ([1] : List Nat) = [1] :: List.replicate 65535 [1] := by
    rw [← List.replicate_succ]
  refine ⟨?_, ?_, write_to_file_ok _ hpixf⟩
  · simp only [Image.height, List.length_replicate]
    omega
  · apply mk'_ok
    · rw [hcons]
      exact List.cons_ne_nil _ _
    · intro r hr
      rw [hmem r hr, hcons]
      rfl
    · intro _ r hr p hp
      rw [hmem r hr] at hp
      simp at hp
      omega

/-- C5 (amended): `write_to_file` performs no dimension check and cannot
fail on a grid whose pixels are all 0 or 1 — it always produces output;
when a dimension exceeds 65535 the corresponding 16-bit header field
overflows into a longer bit string (more than 16 bits), corrupting the
fixed 9-byte header layout instead of raising a range error. -/
theorem C5_dimension_bound_amended (img : Image)
    (hpix : ∀ p ∈ img._data.flatten, p ≤ 1) :
    write_to_file img = .ok (writeBytes img) ∧
    (65535 < img.width → 16 < (toBinPad img.width 16).length) ∧
    (65535 < img.height → 16 < (toBinPad img.height 16).length) := by
  refine ⟨write_to_file_ok img hpix, fun hgt => ?_, fun hgt => ?_⟩
  · exact toBinPad_length_of_ge 16 img.width (by norm_num; omega)
  · exact toBinPad_length_of_ge 16 img.height (by norm_num; omega)

/-- C5 amended witness at the 1×1 grid. -/
theorem C5_dimension_bound_amended_witness :
    write_to_file ⟨[[1]], 0⟩ = .ok (writeBytes ⟨[[1]], 0⟩) :=
  (C5_dimension_bound_amended ⟨[[1]], 0⟩ (by decide)).1

/-- C6 counterexample: the signature followed by only 3 header bytes
(fewer than the 7 the claim requires) decodes successfully into a
width-0, height-1 grid — there is no truncated-header error. -/
theorem C6_counterexample :
    from_file [76, 73, 77, 71, 0, 0, 1] = .ok ⟨[[]], 0⟩ := rfl

/-- C6 (amended): `from_file` has no truncated-header check; short reads
yield fewer bytes and `int.from_bytes` of the empty string is 0, so
missing width/height/format bytes are silently read as zero. Depending on
the bytes present the decode then either fails with an untyped
`IndexError` (for instance whenever at most 2 bytes follow the signature,
so the parsed height is 0 and the empty decoded array crashes the
constructor) or even succeeds (see the counterexample). -/
theorem C6_truncated_header_amended (rest : List Nat) (hlen : rest.length ≤ 2) :
    from_file (limgSignature ++ rest) = .error PyErr.indexError := by
  have htake : (limgSignature ++ rest).take 4 = limgSignature := List.take_left' rfl
  have hdrop6 : (limgSignature ++ rest).drop 6 = [] := by
    rw [show (6 : Nat) = limgSignature.length + 2 from rfl, List.drop_append]
    exact List.drop_eq_nil_of_le hlen
  have hdrop8 : (limgSignature ++ rest).drop 8 = [] := by
    rw [show (8 : Nat) = limgSignature.length + 4 from rfl, List.drop_append]
    exact List.drop_eq_nil_of_le (by omega)
  have hdrop9 : (limgSignature ++ rest).drop 9 = [] := by
    rw [show (9 : Nat) = limgSignature.length + 5 from rfl, List.drop_append]
    exact List.drop_eq_nil_of_le (by omega)
  simp only [from_file]
  rw [if_pos htake, hdrop6, hdrop8, hdrop9]
  simp only [List.take_nil]
  rw [show fromBytesBE [] = 0 from rfl]
  simp [binary_to_data, fillBW, Image.mk', unpackBytes]

/-- C6 amended witness: the bare signature with no header at all. -/
theorem C6_truncated_header_amended_witness :
    from_file (limgSignature ++ []) = .error PyErr.indexError :=
  C6_truncated_header_amended [] (by decide)

/-- C7 counterexample: a one-row matrix whose row has zero columns is
silently accepted by the constructor (no `StructuralError("empty grid")`,
no error at all). -/
theorem C7_counterexample : Image.mk' [[]] 0 = .ok ⟨[[]], 0⟩ := rfl

/-- C7 (amended): the constructor has no empty-grid check. A matrix with
zero rows crashes with an untyped IndexError (from `len(array[0])`),
for every format; and every nonempty matrix whose rows all have zero
columns is silently accepted as a width-0 grid, for every format. -/
theorem C7_empty_grid_amended (f : Nat) :
    Image.mk' [] f = .error PyErr.indexError ∧
    ∀ cells : List (List Nat), cells ≠ [] → (∀ r ∈ cells, r = []) →
      Image.mk' cells f = .ok ⟨cells, f⟩ := by
  refine ⟨rfl, fun cells hne hempty => mk'_ok cells f hne ?_ ?_⟩
  · intro r hr
    rw [hempty r hr]
    cases cells with
    | nil => exact absurd rfl hne
    | cons c0 rest =>
      rw [hempty c0 (by simp)]
      rfl
  · intro _ r hr p hp
    rw [hempty r hr] at hp
    simp at hp

/-- C7 amended witness: a two-row matrix of zero-column rows is
accepted. -/
theorem C7_empty_grid_amended_witness :
    Image.mk' [[], []] 0 = .ok ⟨[[], []], 0⟩ :=
  (C7_empty_grid_amended 0).2 [[], []] (by decide) (by decide)

/-- C8: Bad signature — every input shorter than 4 bytes or whose first
4 bytes differ from `LIMG` makes `from_file` fail with the bad-signature
error (the `ValueError` raised at the signature check), returning no
image. -/
theorem C8_bad_signature (bs : List Nat)
    (h : bs.length < 4 ∨ bs.take 4 ≠ limgSignature) :
    from_file bs = .error PyErr.badSignature := by
  have hneq : bs.take 4 ≠ limgSignature := by
    rcases h with hlen | hne
    · intro he
      have hl : (bs.take 4).length = limgSignature.length := by rw [he]
      rw [List.length_take] at hl
      simp only [limgSignature, List.length_cons, List.length_nil] at hl
      omega
    · exact hne
  unfold from_file
  rw [if_neg hneq]

/-- C8 witness: the bytes of the string `XXXX`. -/
theorem C8_bad_signature_witness :
    from_file [88, 88, 88, 88] = .error PyErr.badSignature :=
  C8_bad_signature [88, 88, 88, 88] (Or.inr (by decide))

/-- C9: Ragged rows — whenever some row's length differs from the first
row's length, construction fails with the ragged-rows error (the
`ValueError` raised by the row-length check) for any format, and no
image value is produced. -/
theorem C9_ragged_rows (cells : List (List Nat)) (f : Nat)
    (h : ∃ r ∈ cells, r.length ≠ cells.headI.length) :
    Image.mk' cells f = .error PyErr.raggedRows := by
  obtain ⟨r, hr, hne⟩ := h
  cases cells with
  | nil => simp at hr
  | cons r0 rest =>
    simp only [List.headI] at hne
    have hall : ¬ ((r0 :: rest).all fun row => row.length == r0.length) = true := by
      intro hall
      rw [List.all_eq_true] at hall
      exact hne (by simpa using hall r hr)
    simp only [Image.mk']
    rw [if_neg hall]

/-- C9 witness: the claim's example `[[0,1],[1]]`. -/
theorem C9_ragged_rows_witness :
    Image.mk' [[0, 1], [1]] 0 = .error PyErr.raggedRows :=
  C9_ragged_rows [[0, 1], [1]] 0 ⟨[1], by decide, by decide⟩

/-- C10: Content validation — for every rectangular matrix declared
BlackAndWhite containing some cell that is neither 0 nor 1 (anywhere in
the matrix: the scan covers every cell), construction fails with the
content error (the re-raised `ValueError` of `validate_array`). -/
theorem C10_content_scan (cells : List (List Nat))
    (hrect : ∀ r ∈ cells, r.length = cells.headI.length)
    (hbad : ∃ r ∈ cells, ∃ p ∈ r, p ≠ 0 ∧ p ≠ 1) :
    Image.mk' cells 0 = .error PyErr.invalidContent := by
  obtain ⟨r, hr, p, hp, hp0, hp1⟩ := hbad
  cases cells with
  | nil => simp at hr
  | cons r0 rest =>
    simp only [List.headI] at hrect
    have h1 : ((r0 :: rest).all fun row => row.length == r0.length) = true := by
      rw [List.all_eq_true]
      intro row hrow
      simp [hrect row hrow]
    have h2 : ¬ validate_array (r0 :: rest) 0 = true := by
      intro hval
      unfold validate_array at hval
      rw [if_pos rfl, List.all_eq_true] at hval
      have hrow := hval r hr
      rw [List.all_eq_true] at hrow
      have := hrow p hp
      simp at this
      rcases this with h | h
      · exact hp0 h
      · exact hp1 h
    simp only [Image.mk']
    rw [if_pos h1, if_neg h2]

/-- C10 witness: the claim's example `[[0,2]]`. -/
theorem C10_content_scan_witness :
    Image.mk' [[0, 2]] 0 = .error PyErr.invalidContent :=
  C10_content_scan [[0, 2]] (by decide) ⟨[0, 2], by decide, 2, by decide, by decide, by decide⟩

end Limg
